import Mathlib

/-!
Verification of the LINQ-style lazy cursor library (src/include/linq.hpp).

The C++ library is a family of pull-based cursors: an abstract `enumerator<T>`
with `operator bool` (validity check), `operator*` (current value) and
`operator++` (advance), a leaf `range_enumerator` over an iterator pair, and
decorator cursors `take_enumerator`, `drop_enumerator`, `select_enumerator`,
`until_enumerator`, `where_enumerator`, each holding a reference to its parent
cursor.  All three operations may mutate state (memoization in `until`,
caching in `select`, upstream advancing everywhere), so each cursor is
embedded as an explicit state machine: a state type together with the three
operations written in state-passing style.

Modelling conventions:
  - the iterator pair `begin_, end_` of `range_enumerator` is embedded as the
    list of elements still to be produced; `++begin_` is `List.tail`;
  - dereferencing an exhausted range and incrementing a past-the-end iterator
    are undefined behaviour in C++; the model returns the `Inhabited` default
    and keeps the empty list, respectively;
  - the C++ `int` counters are embedded as `Int` (no claim exercises values
    near the overflow boundary);
  - loops in the C++ (the skip loop of `where_enumerator`, the constructor
    loop of `drop_enumerator`, the drain loop of `to_vector`) are embedded
    with an explicit fuel argument; for every cursor whose leaf is a finite
    range, `len` (the length of the remaining leaf list, a ghost measure
    carried by the machine) plus one is enough fuel, which the lemmas below
    establish where needed.
-/

/-- The abstract cursor interface of `enumerator<T>` (linq.hpp lines 21 to 77),
as a state machine over a state type `σ`.  `op_bool` is `operator bool`,
`op_deref` is `operator*`, `op_inc` is `operator++`; each returns the
(possibly mutated) state.  `len` is a ghost measure: the length of the leaf
range still remaining, used only to size fuel for the embedded loops. -/
structure enumerator (σ : Type) (α : Type) where
  op_bool : σ → Bool × σ
  op_deref : σ → α × σ
  op_inc : σ → σ
  len : σ → Nat

/-- `range_enumerator` (linq.hpp lines 79 to 98): the leaf cursor over an
iterator pair, embedded as the list of remaining elements.
`operator bool` is `begin_ != end_`, `operator*` is `*begin_`,
`operator++` is `++begin_`. -/
def range_enumerator (α : Type) [Inhabited α] : enumerator (List α) α where
  op_bool s := (!s.isEmpty, s)
  op_deref s := (s.headI, s)
  op_inc s := s.tail
  len s := s.length

/-- `take_enumerator` (linq.hpp lines 100 to 121).  State: parent state plus
the `amount_` field.  `operator bool` is `amount_ > 0 && bool(parent_)`
(short-circuit: the parent is not consulted when `amount_ <= 0`);
`operator++` advances the parent and decrements `amount_` unconditionally. -/
def take_enumerator (M : enumerator σ α) : enumerator (σ × Int) α where
  op_bool s :=
    if 0 < s.2 then ((M.op_bool s.1).1, ((M.op_bool s.1).2, s.2))
    else (false, s)
  op_deref s := ((M.op_deref s.1).1, ((M.op_deref s.1).2, s.2))
  op_inc s := (M.op_inc s.1, s.2 - 1)
  len s := M.len s.1

/-- The constructor loop of `drop_enumerator` (linq.hpp lines 126 to 130):
`for (int i = 0; (i < amount) && bool(parent_); ++i) ++parent_;`.
The first argument is the number of remaining loop iterations, so the
constructor with argument `amount` runs this with `amount.toNat`
(zero iterations when `amount <= 0`).  When the count is exhausted the
condition short-circuits and the parent validity is not consulted. -/
def drop_construct (M : enumerator σ α) : Nat → σ → σ
  | 0, s => s
  | n + 1, s =>
    if (M.op_bool s).1 then drop_construct M n (M.op_inc (M.op_bool s).2)
    else (M.op_bool s).2

/-- `drop_enumerator` after construction (linq.hpp lines 132 to 143): every
operation forwards to the parent; the state is the parent state. -/
def drop_enumerator (M : enumerator σ α) : enumerator σ α where
  op_bool := M.op_bool
  op_deref := M.op_deref
  op_inc := M.op_inc
  len := M.len

/-- The fields of `select_enumerator` (linq.hpp lines 170 to 174): the parent
state, the cached `value_`, the `flag_` marking the cache as stale, and an
instrumentation counter `calls` recording how many times `func_` has been
invoked (not a field of the C++ class; it is used only to state the
invocation-count property and never influences behaviour). -/
structure SelectState (σ : Type) (β : Type) where
  parent_ : σ
  value_ : β
  flag_ : Bool
  calls : Nat

/-- `select_enumerator` (linq.hpp lines 148 to 175).  `operator bool` forwards
to the parent; `operator++` advances the parent and sets `flag_`;
`operator*` recomputes `value_ = func_(*parent_)` only when `flag_` is set
(incrementing the instrumentation counter), otherwise returns the cache. -/
def select_enumerator (M : enumerator σ α) (f : α → β) :
    enumerator (SelectState σ β) β where
  op_bool s := ((M.op_bool s.parent_).1, ⟨(M.op_bool s.parent_).2, s.value_, s.flag_, s.calls⟩)
  op_deref s :=
    if s.flag_ then
      (f (M.op_deref s.parent_).1,
        ⟨(M.op_deref s.parent_).2, f (M.op_deref s.parent_).1, false, s.calls + 1⟩)
    else (s.value_, s)
  op_inc s := ⟨M.op_inc s.parent_, s.value_, true, s.calls⟩
  len s := M.len s.parent_

/-- The fields of `until_enumerator` (linq.hpp lines 202 to 206): parent state,
the memoized stop decision `flag_`, and `flag_of_flag_` marking the memo as
computed for the current position.  In the C++ the field `flag_` is left
uninitialized by the constructor; it is only ever read after being written
(guarded by `flag_of_flag_`), so the lemmas below quantify over its initial
value where it matters. -/
structure UntilState (σ : Type) where
  parent_ : σ
  flag_ : Bool
  flag_of_flag_ : Bool

/-- `until_enumerator` (linq.hpp lines 177 to 207).  `operator bool` returns
false when the parent is invalid; otherwise it memoizes
`flag_ = !func_(*parent_)` once per position and returns `flag_`.
`operator++` advances the parent and clears the memo flag. -/
def until_enumerator (M : enumerator σ α) (p : α → Bool) :
    enumerator (UntilState σ) α where
  op_bool s :=
    if (M.op_bool s.parent_).1 then
      if s.flag_of_flag_ then
        (s.flag_, ⟨(M.op_bool s.parent_).2, s.flag_, true⟩)
      else
        (!p (M.op_deref (M.op_bool s.parent_).2).1,
          ⟨(M.op_deref (M.op_bool s.parent_).2).2,
            !p (M.op_deref (M.op_bool s.parent_).2).1, true⟩)
    else (false, ⟨(M.op_bool s.parent_).2, s.flag_, s.flag_of_flag_⟩)
  op_deref s := ((M.op_deref s.parent_).1, ⟨(M.op_deref s.parent_).2, s.flag_, s.flag_of_flag_⟩)
  op_inc s := ⟨M.op_inc s.parent_, s.flag_, false⟩
  len s := M.len s.parent_

/-- The skip loop shared by the constructor and `operator++` of
`where_enumerator` (linq.hpp lines 213 to 215 and 218 to 221):
`while (bool(parent_) && !func_(*parent_)) ++parent_;`.
The first argument is fuel bounding the number of iterations; `len + 1` is
enough for every machine used below (each iteration shortens the leaf). -/
def where_skip (M : enumerator σ α) (p : α → Bool) : Nat → σ → σ
  | 0, s => s
  | n + 1, s =>
    if (M.op_bool s).1 then
      if p (M.op_deref (M.op_bool s).2).1 then (M.op_deref (M.op_bool s).2).2
      else where_skip M p n (M.op_inc (M.op_deref (M.op_bool s).2).2)
    else (M.op_bool s).2

/-- The constructor of `where_enumerator` (linq.hpp lines 212 to 216): runs the
skip loop on the parent before returning. -/
def where_construct (M : enumerator σ α) (p : α → Bool) (s : σ) : σ :=
  where_skip M p (M.len s + 1) s

/-- `where_enumerator` after construction (linq.hpp lines 217 to 231): the
state is the parent state; `operator bool` and `operator*` forward to the
parent; `operator++` advances the parent once and then runs the skip loop. -/
def where_enumerator (M : enumerator σ α) (p : α → Bool) : enumerator σ α where
  op_bool := M.op_bool
  op_deref := M.op_deref
  op_inc s := where_skip M p (M.len (M.op_inc s) + 1) (M.op_inc s)
  len := M.len

/-- The drain loop of `enumerator::to_vector` (linq.hpp lines 61 to 68):
`while (*this) { result.push_back(**this); ++(*this); }`, with explicit
fuel; returns the collected list together with the final cursor state. -/
def toVecFuel (M : enumerator σ α) : Nat → σ → List α × σ
  | 0, s => ([], s)
  | n + 1, s =>
    if (M.op_bool s).1 then
      ((M.op_deref (M.op_bool s).2).1 ::
          (toVecFuel M n (M.op_inc (M.op_deref (M.op_bool s).2).2)).1,
        (toVecFuel M n (M.op_inc (M.op_deref (M.op_bool s).2).2)).2)
    else ([], (M.op_bool s).2)

/-- `to_vector` together with the final cursor state (the C++ returns only the
vector; the final state is kept to express frame properties about the
upstream cursor). -/
def to_vector_impl (M : enumerator σ α) (s : σ) : List α × σ :=
  toVecFuel M (M.len s + 1) s

/-- `enumerator::to_vector` (linq.hpp lines 61 to 68): the collected list. -/
def to_vector (M : enumerator σ α) (s : σ) : List α :=
  (to_vector_impl M s).1

/-! ### Projection lemmas for the machines (definitional). -/

@[simp] theorem range_op_bool {α : Type} [Inhabited α] (s : List α) :
    (range_enumerator α).op_bool s = (!s.isEmpty, s) := rfl

@[simp] theorem range_op_deref {α : Type} [Inhabited α] (s : List α) :
    (range_enumerator α).op_deref s = (s.headI, s) := rfl

@[simp] theorem range_op_inc {α : Type} [Inhabited α] (s : List α) :
    (range_enumerator α).op_inc s = s.tail := rfl

@[simp] theorem range_len {α : Type} [Inhabited α] (s : List α) :
    (range_enumerator α).len s = s.length := rfl

@[simp] theorem take_op_bool (M : enumerator σ α) (s : σ × Int) :
    (take_enumerator M).op_bool s
      = if 0 < s.2 then ((M.op_bool s.1).1, ((M.op_bool s.1).2, s.2))
        else (false, s) := rfl

@[simp] theorem take_op_deref (M : enumerator σ α) (s : σ × Int) :
    (take_enumerator M).op_deref s
      = ((M.op_deref s.1).1, ((M.op_deref s.1).2, s.2)) := rfl

@[simp] theorem take_op_inc (M : enumerator σ α) (s : σ × Int) :
    (take_enumerator M).op_inc s = (M.op_inc s.1, s.2 - 1) := rfl

@[simp] theorem take_len (M : enumerator σ α) (s : σ × Int) :
    (take_enumerator M).len s = M.len s.1 := rfl

@[simp] theorem drop_op_bool (M : enumerator σ α) :
    (drop_enumerator M).op_bool = M.op_bool := rfl

@[simp] theorem drop_op_deref (M : enumerator σ α) :
    (drop_enumerator M).op_deref = M.op_deref := rfl

@[simp] theorem drop_op_inc (M : enumerator σ α) :
    (drop_enumerator M).op_inc = M.op_inc := rfl

@[simp] theorem drop_len (M : enumerator σ α) :
    (drop_enumerator M).len = M.len := rfl

@[simp] theorem select_op_bool (M : enumerator σ α) (f : α → β)
    (s : SelectState σ β) :
    (select_enumerator M f).op_bool s
      = ((M.op_bool s.parent_).1,
          ⟨(M.op_bool s.parent_).2, s.value_, s.flag_, s.calls⟩) := rfl

@[simp] theorem select_op_deref (M : enumerator σ α) (f : α → β)
    (s : SelectState σ β) :
    (select_enumerator M f).op_deref s
      = if s.flag_ then
          (f (M.op_deref s.parent_).1,
            ⟨(M.op_deref s.parent_).2, f (M.op_deref s.parent_).1, false,
              s.calls + 1⟩)
        else (s.value_, s) := rfl

@[simp] theorem select_op_inc (M : enumerator σ α) (f : α → β)
    (s : SelectState σ β) :
    (select_enumerator M f).op_inc s
      = ⟨M.op_inc s.parent_, s.value_, true, s.calls⟩ := rfl

@[simp] theorem select_len (M : enumerator σ α) (f : α → β)
    (s : SelectState σ β) :
    (select_enumerator M f).len s = M.len s.parent_ := rfl

@[simp] theorem until_op_bool (M : enumerator σ α) (p : α → Bool)
    (s : UntilState σ) :
    (until_enumerator M p).op_bool s
      = if (M.op_bool s.parent_).1 then
          if s.flag_of_flag_ then
            (s.flag_, ⟨(M.op_bool s.parent_).2, s.flag_, true⟩)
          else
            (!p (M.op_deref (M.op_bool s.parent_).2).1,
              ⟨(M.op_deref (M.op_bool s.parent_).2).2,
                !p (M.op_deref (M.op_bool s.parent_).2).1, true⟩)
        else (false, ⟨(M.op_bool s.parent_).2, s.flag_, s.flag_of_flag_⟩) := rfl

@[simp] theorem until_op_deref (M : enumerator σ α) (p : α → Bool)
    (s : UntilState σ) :
    (until_enumerator M p).op_deref s
      = ((M.op_deref s.parent_).1,
          ⟨(M.op_deref s.parent_).2, s.flag_, s.flag_of_flag_⟩) := rfl

@[simp] theorem until_op_inc (M : enumerator σ α) (p : α → Bool)
    (s : UntilState σ) :
    (until_enumerator M p).op_inc s = ⟨M.op_inc s.parent_, s.flag_, false⟩ := rfl

@[simp] theorem until_len (M : enumerator σ α) (p : α → Bool)
    (s : UntilState σ) :
    (until_enumerator M p).len s = M.len s.parent_ := rfl

@[simp] theorem where_op_bool (M : enumerator σ α) (p : α → Bool) :
    (where_enumerator M p).op_bool = M.op_bool := rfl

@[simp] theorem where_op_deref (M : enumerator σ α) (p : α → Bool) :
    (where_enumerator M p).op_deref = M.op_deref := rfl

@[simp] theorem where_op_inc (M : enumerator σ α) (p : α → Bool) (s : σ) :
    (where_enumerator M p).op_inc s
      = where_skip M p (M.len (M.op_inc s) + 1) (M.op_inc s) := rfl

@[simp] theorem where_len (M : enumerator σ α) (p : α → Bool) :
    (where_enumerator M p).len = M.len := rfl

/-! ### Draining a `take_enumerator` over a range -/

theorem toVecFuel_take_range {α : Type} [Inhabited α] (S : List α) :
    ∀ (fuel : Nat) (k : Int), S.length < fuel →
      (toVecFuel (take_enumerator (range_enumerator α)) fuel (S, k)).1
        = S.take k.toNat := by
  induction S with
  | nil =>
    intro fuel k h
    match fuel with
    | n + 1 =>
      by_cases hk : (0:Int) < k <;> simp [toVecFuel, hk]
  | cons a S ih =>
    intro fuel k h
    match fuel with
    | n + 1 =>
      by_cases hk : (0:Int) < k
      · have ht : k.toNat = (k - 1).toNat + 1 := by omega
        have hr := ih n (k - 1) (Nat.lt_of_succ_lt_succ h)
        rw [toVecFuel]
        simp only [take_op_bool, range_op_bool, List.isEmpty_cons,
          Bool.not_false, hk, if_true, take_op_deref, range_op_deref,
          take_op_inc, range_op_inc, List.headI_cons, List.tail_cons]
        rw [ht, List.take_succ_cons]
        exact congrArg (a :: ·) hr
      · have ht : k.toNat = 0 := by omega
        simp [toVecFuel, hk, ht]

/-- C2: for every finite sequence `S` and count `k >= 0`,
`from(S).take(k).to_vector()` returns exactly the first `min(k, |S|)`
elements of `S` in their original order (as the list `S.take k.toNat`). -/
theorem take_to_vector {α : Type} [Inhabited α] (S : List α) (k : Int)
    (h : 0 ≤ k) :
    to_vector (take_enumerator (range_enumerator α)) (S, k) = S.take k.toNat := by
  have hr := toVecFuel_take_range S (S.length + 1) k (by omega)
  simpa [to_vector, to_vector_impl] using hr

/-- Witness for `take_to_vector` at `S = [10, 20, 30]`, `k = 2`. -/
theorem take_to_vector_witness :
    to_vector (take_enumerator (range_enumerator Int)) ([10, 20, 30], 2)
      = [10, 20] :=
  take_to_vector [10, 20, 30] 2 (by decide)

/-- C8: `take(n)` with `n <= 0` on any cursor is invalid from construction,
its `to_vector` is empty, and it drains exactly like `take(0)`. -/
theorem take_nonpositive {σ α : Type} (M : enumerator σ α) (s : σ) (n : Int)
    (h : n ≤ 0) :
    ((take_enumerator M).op_bool (s, n)).1 = false
    ∧ to_vector (take_enumerator M) (s, n) = []
    ∧ to_vector (take_enumerator M) (s, n)
        = to_vector (take_enumerator M) (s, 0) := by
  have hn : ¬ (0:Int) < n := by omega
  refine ⟨?_, ?_, ?_⟩ <;> simp [to_vector, to_vector_impl, toVecFuel, hn]

/-- Witness for `take_nonpositive` at the range over `[5, 6]` and `n = -3`. -/
theorem take_nonpositive_witness :
    ((take_enumerator (range_enumerator Int)).op_bool ([5, 6], -3)).1 = false
    ∧ to_vector (take_enumerator (range_enumerator Int)) ([5, 6], -3) = []
    ∧ to_vector (take_enumerator (range_enumerator Int)) ([5, 6], -3)
        = to_vector (take_enumerator (range_enumerator Int)) ([5, 6], 0) :=
  take_nonpositive (range_enumerator Int) [5, 6] (-3) (by decide)

/-! ### The `drop_enumerator` constructor loop and passthrough behaviour -/

theorem drop_construct_range {α : Type} [Inhabited α] :
    ∀ (n : Nat) (S : List α),
      drop_construct (range_enumerator α) n S = S.drop n := by
  intro n
  induction n with
  | zero => intro S; simp [drop_construct]
  | succ n ih =>
    intro S
    cases S with
    | nil => simp [drop_construct]
    | cons a S => simp [drop_construct, ih]

theorem toVecFuel_drop_range {α : Type} [Inhabited α] (S : List α) :
    ∀ fuel, S.length < fuel →
      (toVecFuel (drop_enumerator (range_enumerator α)) fuel S).1 = S := by
  induction S with
  | nil =>
    intro fuel h
    match fuel with
    | n + 1 => simp [toVecFuel]
  | cons a S ih =>
    intro fuel h
    match fuel with
    | n + 1 =>
      have hr := ih n (Nat.lt_of_succ_lt_succ h)
      simp [toVecFuel, hr]

/-- C3: for every finite sequence `S` and count `k >= 0`, the `drop`
constructor advances the upstream exactly `min(k, |S|)` positions before
returning (leaving the upstream at `S.drop (min k.toNat S.length)`),
`from(S).drop(k).to_vector()` returns the elements after that prefix, and the
`drop` cursor operations simply forward to the upstream. -/
theorem drop_spec {α : Type} [Inhabited α] (S : List α) (k : Int) (h : 0 ≤ k) :
    drop_construct (range_enumerator α) k.toNat S
      = S.drop (min k.toNat S.length)
    ∧ to_vector (drop_enumerator (range_enumerator α))
        (drop_construct (range_enumerator α) k.toNat S) = S.drop k.toNat
    ∧ (∀ (σ β : Type) (M : enumerator σ β),
        (drop_enumerator M).op_inc = M.op_inc
        ∧ (drop_enumerator M).op_deref = M.op_deref
        ∧ (drop_enumerator M).op_bool = M.op_bool) := by
  have hdm : S.drop (min k.toNat S.length) = S.drop k.toNat := by
    rcases Nat.le_total k.toNat S.length with hle | hle
    · rw [Nat.min_eq_left hle]
    · rw [Nat.min_eq_right hle, List.drop_length, List.drop_eq_nil_of_le hle]
  refine ⟨by rw [drop_construct_range, hdm], ?_, fun σ β M => ⟨rfl, rfl, rfl⟩⟩
  rw [drop_construct_range]
  have hr := toVecFuel_drop_range (S.drop k.toNat)
    ((S.drop k.toNat).length + 1) (by omega)
  simpa [to_vector, to_vector_impl] using hr

/-- Witness for `drop_spec` at `S = [1, 2, 3]`, `k = 5`. -/
theorem drop_spec_witness :
    drop_construct (range_enumerator Int) (Int.toNat 5) [1, 2, 3]
      = List.drop (min (Int.toNat 5) (List.length [1, 2, 3])) [1, 2, 3]
    ∧ to_vector (drop_enumerator (range_enumerator Int))
        (drop_construct (range_enumerator Int) (Int.toNat 5) [1, 2, 3])
        = List.drop (Int.toNat 5) [1, 2, 3]
    ∧ (∀ (σ β : Type) (M : enumerator σ β),
        (drop_enumerator M).op_inc = M.op_inc
        ∧ (drop_enumerator M).op_deref = M.op_deref
        ∧ (drop_enumerator M).op_bool = M.op_bool) :=
  drop_spec [1, 2, 3] 5 (by decide)

/-- C10: `drop(n)` with `n < 0` skips nothing at construction (the upstream
is left untouched, exactly as `drop(0)` leaves it) and the resulting cursor
presents every remaining upstream element unchanged. -/
theorem drop_negative {α : Type} [Inhabited α] (S : List α) (n : Int)
    (h : n < 0) :
    drop_construct (range_enumerator α) n.toNat S = S
    ∧ drop_construct (range_enumerator α) n.toNat S
        = drop_construct (range_enumerator α) ((0:Int)).toNat S
    ∧ to_vector (drop_enumerator (range_enumerator α))
        (drop_construct (range_enumerator α) n.toNat S) = S := by
  have h0 : n.toNat = 0 := by omega
  have hr := toVecFuel_drop_range S (S.length + 1) (by omega)
  refine ⟨by simp [h0, drop_construct], by simp [h0, drop_construct], ?_⟩
  simp only [h0, drop_construct]
  simpa [to_vector, to_vector_impl] using hr

/-- Witness for `drop_negative` at `S = [7, 8]`, `n = -1`. -/
theorem drop_negative_witness :
    drop_construct (range_enumerator Int) (Int.toNat (-1)) [7, 8] = [7, 8]
    ∧ drop_construct (range_enumerator Int) (Int.toNat (-1)) [7, 8]
        = drop_construct (range_enumerator Int) (Int.toNat 0) [7, 8]
    ∧ to_vector (drop_enumerator (range_enumerator Int))
        (drop_construct (range_enumerator Int) (Int.toNat (-1)) [7, 8])
        = [7, 8] :=
  drop_negative [7, 8] (-1) (by decide)

/-! ### Draining a `select_enumerator` over a range -/

theorem toVecFuel_select_range {α β : Type} [Inhabited α] [Inhabited β]
    (f : α → β) (S : List α) :
    ∀ (fuel : Nat) (v : β) (c : Nat), S.length < fuel →
      (toVecFuel (select_enumerator (range_enumerator α) f) fuel
          ⟨S, v, true, c⟩).1 = S.map f
      ∧ (toVecFuel (select_enumerator (range_enumerator α) f) fuel
          ⟨S, v, true, c⟩).2.calls = c + S.length := by
  induction S with
  | nil =>
    intro fuel v c h
    match fuel with
    | n + 1 => constructor <;> simp [toVecFuel]
  | cons a S ih =>
    intro fuel v c h
    match fuel with
    | n + 1 =>
      have hr := ih n (f a) (c + 1) (Nat.lt_of_succ_lt_succ h)
      rw [toVecFuel]
      simp only [select_op_bool, range_op_bool, List.isEmpty_cons,
        Bool.not_false, if_true, select_op_deref, range_op_deref,
        select_op_inc, range_op_inc, List.headI_cons, List.tail_cons]
      constructor
      · simpa using congrArg (f a :: ·) hr.1
      · have h2 := hr.2
        simp only [List.length_cons]
        omega

/-- C4: `from(S).select(f).to_vector()` is `f` mapped over `S` (same length
and order); the transform is invoked exactly once per consumed element (the
instrumentation counter ends at `|S|` after starting at `0`); a repeated
`current()` with no intervening `advance()` returns the cached value and
leaves the whole state (counter included) unchanged, so `f` is not
re-invoked; and the validity of the select cursor mirrors the upstream
validity exactly. -/
theorem select_spec {α β : Type} [Inhabited α] [Inhabited β] (S : List α)
    (f : α → β) :
    to_vector (select_enumerator (range_enumerator α) f)
      ⟨S, default, true, 0⟩ = S.map f
    ∧ (to_vector_impl (select_enumerator (range_enumerator α) f)
        ⟨S, default, true, 0⟩).2.calls = S.length
    ∧ (∀ (σ : Type) (M : enumerator σ α) (s : SelectState σ β),
        (select_enumerator M f).op_deref
            ((select_enumerator M f).op_deref s).2
          = (select_enumerator M f).op_deref s)
    ∧ (∀ (σ : Type) (M : enumerator σ α) (s : SelectState σ β),
        ((select_enumerator M f).op_bool s).1 = (M.op_bool s.parent_).1) := by
  have hr := toVecFuel_select_range f S (S.length + 1) default 0 (by omega)
  refine ⟨?_, ?_, ?_, ?_⟩
  · simpa [to_vector, to_vector_impl] using hr.1
  · simpa [to_vector_impl] using hr.2
  · intro σ M s
    by_cases hf : s.flag_ <;> simp [hf]
  · intro σ M s
    rfl

/-- Witness for `select_spec` (it has no hypotheses; this instantiates it at
`S = [1, 2]`, `f = (10 * .)` and evaluates the first conjunct). -/
theorem select_spec_witness :
    to_vector (select_enumerator (range_enumerator Int) (fun x => 10 * x))
      ⟨[1, 2], default, true, 0⟩ = [10, 20] := by
  have h := (select_spec (α := Int) [1, 2] (fun x => 10 * x)).1
  simpa using h

/-! ### Draining an `until_enumerator` over a range -/

theorem toVecFuel_until_range {α : Type} [Inhabited α] (p : α → Bool)
    (S : List α) :
    ∀ (fuel : Nat) (b : Bool), S.length < fuel →
      (toVecFuel (until_enumerator (range_enumerator α) p) fuel
          ⟨S, b, false⟩).1 = S.takeWhile (fun x => !p x)
      ∧ (toVecFuel (until_enumerator (range_enumerator α) p) fuel
          ⟨S, b, false⟩).2.parent_ = S.dropWhile (fun x => !p x) := by
  induction S with
  | nil =>
    intro fuel b h
    match fuel with
    | n + 1 => constructor <;> simp [toVecFuel]
  | cons a S ih =>
    intro fuel b h
    match fuel with
    | n + 1 =>
      by_cases hp : p a
      · constructor <;> simp [toVecFuel, hp]
      · have hr := ih n true (Nat.lt_of_succ_lt_succ h)
        rw [toVecFuel]
        simp only [until_op_bool, range_op_bool, List.isEmpty_cons,
          Bool.not_false, if_true, if_false, Bool.false_eq_true,
          until_op_deref, range_op_deref, until_op_inc, range_op_inc,
          List.headI_cons, List.tail_cons, hp]
        constructor
        · simpa [hp] using congrArg (a :: ·) hr.1
        · simpa [hp] using hr.2

/-- C5: `from(S).until(p).to_vector()` is the longest prefix of `S` in which
no element satisfies `p` (every element strictly before the first element
satisfying `p`, that element excluded).  The initial `flag_` field is
uninitialized in the C++, so the statement quantifies over its initial
value `b`. -/
theorem until_to_vector {α : Type} [Inhabited α] (S : List α) (p : α → Bool)
    (b : Bool) :
    to_vector (until_enumerator (range_enumerator α) p) ⟨S, b, false⟩
      = S.takeWhile (fun x => !p x) := by
  have hr := toVecFuel_until_range p S (S.length + 1) b (by omega)
  simpa [to_vector, to_vector_impl] using hr.1

/-- Witness for `until_to_vector` (no hypotheses; instance at
`S = [1, 2, 3, 0, 4, 5]`, `p = (. == 0)`). -/
theorem until_to_vector_witness :
    to_vector (until_enumerator (range_enumerator Int) (fun x => x == 0))
      ⟨[1, 2, 3, 0, 4, 5], false, false⟩ = [1, 2, 3] := by
  have h := until_to_vector (α := Int) [1, 2, 3, 0, 4, 5] (fun x => x == 0) false
  simpa using h

/-! ### List helpers about `dropWhile` -/

@[simp] theorem dropWhile_const_false {α : Type} (l : List α) :
    l.dropWhile (fun _ => false) = l := by
  induction l with
  | nil => rfl
  | cons a l ih => simp [List.dropWhile_cons]

theorem dropWhile_head_false {α : Type} (q : α → Bool) :
    ∀ (l : List α) (a : α) (r : List α), l.dropWhile q = a :: r → q a = false := by
  intro l
  induction l with
  | nil => intro a r h; simp [List.dropWhile] at h
  | cons x l ih =>
    intro a r h
    by_cases hx : q x
    · rw [List.dropWhile_cons_of_pos hx] at h
      exact ih a r h
    · rw [List.dropWhile_cons_of_neg hx] at h
      injection h with h1 h2
      subst h1
      simpa using hx

/-- C9: draining an until cursor over a sequence that contains an element
satisfying `p` leaves the upstream range positioned exactly at the first such
element: the upstream state is the suffix starting at the trigger, the
upstream is still valid, and its current value satisfies `p` — the until
cursor never advances the upstream past the stopping element, so the
upstream is not fully drained. -/
theorem until_upstream_frame {α : Type} [Inhabited α] (S : List α)
    (p : α → Bool) (b : Bool) (h : ∃ x ∈ S, p x = true) :
    (to_vector_impl (until_enumerator (range_enumerator α) p)
        ⟨S, b, false⟩).2.parent_ = S.dropWhile (fun x => !p x)
    ∧ S.dropWhile (fun x => !p x) ≠ []
    ∧ ((range_enumerator α).op_bool (S.dropWhile (fun x => !p x))).1 = true
    ∧ p (((range_enumerator α).op_deref
        (S.dropWhile (fun x => !p x))).1) = true := by
  have hr := toVecFuel_until_range p S (S.length + 1) b (by omega)
  have hne : S.dropWhile (fun x => !p x) ≠ [] := by
    simp only [ne_eq, List.dropWhile_eq_nil_iff]
    push_neg
    obtain ⟨x, hx, hpx⟩ := h
    exact ⟨x, hx, by simp [hpx]⟩
  obtain ⟨a, r, he⟩ := List.exists_cons_of_ne_nil hne
  have hpa := dropWhile_head_false (fun x => !p x) S a r he
  refine ⟨by simpa [to_vector_impl] using hr.2, hne, ?_, ?_⟩
  · rw [he]; simp
  · rw [he]; simpa using hpa

/-- Witness for `until_upstream_frame` at `S = [1, 2, 3]`, `p = (. == 2)`,
`b = false`. -/
theorem until_upstream_frame_witness :
    (to_vector_impl (until_enumerator (range_enumerator Int)
        (fun x => x == 2)) ⟨[1, 2, 3], false, false⟩).2.parent_
      = List.dropWhile (fun x => !(x == 2)) [1, 2, 3]
    ∧ List.dropWhile (fun x => !(x == 2)) ([1, 2, 3] : List Int) ≠ []
    ∧ ((range_enumerator Int).op_bool
        (List.dropWhile (fun x => !(x == 2)) [1, 2, 3])).1 = true
    ∧ (((range_enumerator Int).op_deref
        (List.dropWhile (fun x => !(x == 2)) [1, 2, 3])).1 == 2) = true :=
  until_upstream_frame [1, 2, 3] (fun x => x == 2) false (by decide)

/-! ### Where filters over a range: the list-machine view

A `range_enumerator`, and every stack of `where_enumerator` decorators over
it, is a machine whose state is the list of remaining leaf elements, whose
validity and dereference read that list directly, and whose advance is some
function of the list.  `listMachine` captures this shape; `dwInc q` is the
advance function of a stack of filters whose conjunction is `q` (drop the
head, then skip to the next element satisfying `q`). -/

def listMachine (α : Type) [Inhabited α] (f : List α → List α) :
    enumerator (List α) α where
  op_bool s := (!s.isEmpty, s)
  op_deref s := (s.headI, s)
  op_inc := f
  len s := s.length

def dwInc (q : α → Bool) (s : List α) : List α :=
  s.tail.dropWhile (fun x => !q x)

@[simp] theorem listMachine_op_bool {α : Type} [Inhabited α]
    (f : List α → List α) (s : List α) :
    (listMachine α f).op_bool s = (!s.isEmpty, s) := rfl

@[simp] theorem listMachine_op_deref {α : Type} [Inhabited α]
    (f : List α → List α) (s : List α) :
    (listMachine α f).op_deref s = (s.headI, s) := rfl

@[simp] theorem listMachine_op_inc {α : Type} [Inhabited α]
    (f : List α → List α) (s : List α) :
    (listMachine α f).op_inc s = f s := rfl

@[simp] theorem listMachine_len {α : Type} [Inhabited α]
    (f : List α → List α) (s : List α) :
    (listMachine α f).len s = s.length := rfl

theorem enumerator_eq {σ α : Type} {A B : enumerator σ α}
    (h1 : A.op_bool = B.op_bool) (h2 : A.op_deref = B.op_deref)
    (h3 : A.op_inc = B.op_inc) (h4 : A.len = B.len) : A = B := by
  cases A; cases B
  cases h1; cases h2; cases h3; cases h4
  rfl

theorem range_eq_listMachine {α : Type} [Inhabited α] :
    range_enumerator α = listMachine α (dwInc (fun _ => true)) := by
  refine enumerator_eq rfl rfl ?_ rfl
  funext s
  simp [range_enumerator, listMachine, dwInc]

theorem dropWhile_length_le {α : Type} (q : α → Bool) :
    ∀ l : List α, (l.dropWhile q).length ≤ l.length := by
  intro l
  induction l with
  | nil => simp
  | cons a l ih =>
    by_cases ha : q a
    · rw [List.dropWhile_cons_of_pos ha]
      simp only [List.length_cons]
      omega
    · rw [List.dropWhile_cons_of_neg ha]

theorem where_skip_listMachine {α : Type} [Inhabited α] (q p : α → Bool)
    (t u : List α) (fuel : Nat) (hu : u = t.dropWhile (fun x => !q x))
    (h : u.length < fuel) :
    where_skip (listMachine α (dwInc q)) p fuel u
      = t.dropWhile (fun x => !(q x && p x)) := by
  subst hu
  induction t generalizing fuel with
  | nil =>
    match fuel with
    | n + 1 => simp [where_skip]
  | cons a t ih =>
    by_cases hq : q a
    · rw [List.dropWhile_cons_of_neg (by simp [hq])] at h ⊢
      match fuel with
      | n + 1 =>
        by_cases hp : p a
        · simp [where_skip, List.dropWhile_cons_of_neg, hq, hp]
        · have hlen : (t.dropWhile (fun x => !q x)).length < n := by
            have := dropWhile_length_le (fun x => !q x) t
            simp only [List.length_cons] at h
            omega
          have hr := ih n hlen
          rw [where_skip]
          simp only [listMachine_op_bool, List.isEmpty_cons, Bool.not_false,
            if_true, listMachine_op_deref, List.headI_cons, hp,
            Bool.false_eq_true, if_false, listMachine_op_inc]
          rw [List.dropWhile_cons_of_pos (by simp [hq, hp])]
          simpa [dwInc] using hr
    · rw [List.dropWhile_cons_of_pos (by simp [hq])] at h ⊢
      rw [List.dropWhile_cons_of_pos (by simp [hq])]
      exact ih fuel h

theorem toVecFuel_listMachine {α : Type} [Inhabited α] (q : α → Bool)
    (t u : List α) (fuel : Nat) (hu : u = t.dropWhile (fun x => !q x))
    (h : u.length < fuel) :
    (toVecFuel (listMachine α (dwInc q)) fuel u).1 = t.filter q := by
  subst hu
  induction t generalizing fuel with
  | nil =>
    match fuel with
    | n + 1 => simp [toVecFuel]
  | cons a t ih =>
    by_cases hq : q a
    · rw [List.dropWhile_cons_of_neg (by simp [hq])] at h ⊢
      match fuel with
      | n + 1 =>
        have hlen : (t.dropWhile (fun x => !q x)).length < n := by
          have := dropWhile_length_le (fun x => !q x) t
          simp only [List.length_cons] at h
          omega
        have hr := ih n hlen
        rw [toVecFuel]
        simp only [listMachine_op_bool, List.isEmpty_cons, Bool.not_false,
          if_true, listMachine_op_deref, List.headI_cons, listMachine_op_inc]
        rw [List.filter_cons_of_pos hq]
        simpa [dwInc] using congrArg (a :: ·) hr
    · rw [List.dropWhile_cons_of_pos (by simp [hq])] at h ⊢
      rw [List.filter_cons_of_neg (by simp [hq])]
      exact ih fuel h

theorem where_enumerator_listMachine {α : Type} [Inhabited α]
    (q p : α → Bool) :
    where_enumerator (listMachine α (dwInc q)) p
      = listMachine α (dwInc (fun x => q x && p x)) := by
  refine enumerator_eq rfl rfl ?_ rfl
  funext s
  show where_skip (listMachine α (dwInc q)) p ((dwInc q s).length + 1)
      (dwInc q s)
    = dwInc (fun x => q x && p x) s
  exact where_skip_listMachine q p s.tail (dwInc q s)
    ((dwInc q s).length + 1) rfl (by omega)

theorem where_range_eq {α : Type} [Inhabited α] (p : α → Bool) :
    where_enumerator (range_enumerator α) p = listMachine α (dwInc p) := by
  rw [range_eq_listMachine, where_enumerator_listMachine]
  exact congrArg (listMachine α) (by funext s; simp [dwInc])

theorem where_construct_range {α : Type} [Inhabited α] (p : α → Bool)
    (S : List α) :
    where_construct (range_enumerator α) p S = S.dropWhile (fun x => !p x) := by
  simp only [where_construct, range_eq_listMachine, listMachine_len]
  have h := where_skip_listMachine (fun _ => true) p S S (S.length + 1)
    (by simp) (by omega)
  simpa using h

theorem where_inc_range {α : Type} [Inhabited α] (p : α → Bool) (s : List α) :
    (where_enumerator (range_enumerator α) p).op_inc s
      = s.tail.dropWhile (fun x => !p x) := by
  rw [where_range_eq]
  rfl

theorem where_to_vector_aux {α : Type} [Inhabited α] (p : α → Bool)
    (S : List α) :
    to_vector (where_enumerator (range_enumerator α) p)
      (S.dropWhile (fun x => !p x)) = S.filter p := by
  simp only [to_vector, to_vector_impl, where_range_eq, listMachine_len]
  exact toVecFuel_listMachine p S _ _ rfl (by omega)

theorem where_state_sat {α : Type} [Inhabited α] (p : α → Bool) (T u : List α)
    (hu : u = T.dropWhile (fun x => !p x))
    (hb : ((where_enumerator (range_enumerator α) p).op_bool u).1 = true) :
    p (((where_enumerator (range_enumerator α) p).op_deref u).1) = true := by
  subst hu
  simp only [where_op_bool, range_op_bool, Bool.not_eq_true'] at hb
  have hne : T.dropWhile (fun x => !p x) ≠ [] := by
    intro hnil
    rw [hnil] at hb
    simp at hb
  obtain ⟨a, r, he⟩ := List.exists_cons_of_ne_nil hne
  have hpa := dropWhile_head_false (fun x => !p x) T a r he
  simp only [where_op_deref, range_op_deref, he, List.headI_cons]
  simpa using hpa

/-- C6: `from(S).where(p).to_vector()` returns exactly the elements of `S`
satisfying `p`, in their original order; moreover immediately after
construction, and immediately after any `advance()` call from any state, the
cursor is either invalid or its current element satisfies `p` (the cursor
auto-advances the upstream past failing elements before control returns). -/
theorem where_spec {α : Type} [Inhabited α] (S : List α) (p : α → Bool) :
    to_vector (where_enumerator (range_enumerator α) p)
      (where_construct (range_enumerator α) p S) = S.filter p
    ∧ (((where_enumerator (range_enumerator α) p).op_bool
          (where_construct (range_enumerator α) p S)).1 = true →
        p (((where_enumerator (range_enumerator α) p).op_deref
          (where_construct (range_enumerator α) p S)).1) = true)
    ∧ (∀ s : List α,
        ((where_enumerator (range_enumerator α) p).op_bool
          ((where_enumerator (range_enumerator α) p).op_inc s)).1 = true →
        p (((where_enumerator (range_enumerator α) p).op_deref
          ((where_enumerator (range_enumerator α) p).op_inc s)).1) = true) := by
  refine ⟨?_, ?_, ?_⟩
  · rw [where_construct_range]
    exact where_to_vector_aux p S
  · rw [where_construct_range]
    exact where_state_sat p S _ rfl
  · intro s
    rw [where_inc_range]
    exact where_state_sat p s.tail _ rfl

/-- Witness for `where_spec` at `S = [1, 2, 3, 4]`, `p = (. % 2 == 0)`,
with the after-advance invariant instantiated at the state `[2, 3, 4]`. -/
theorem where_spec_witness :
    to_vector (where_enumerator (range_enumerator Int) (fun x => x % 2 == 0))
        (where_construct (range_enumerator Int) (fun x => x % 2 == 0)
          [1, 2, 3, 4]) = [2, 4]
    ∧ ((fun x : Int => x % 2 == 0)
        (((where_enumerator (range_enumerator Int)
              (fun x => x % 2 == 0)).op_deref
          ((where_enumerator (range_enumerator Int)
              (fun x => x % 2 == 0)).op_inc [2, 3, 4])).1) = true) := by
  have h := where_spec (α := Int) [1, 2, 3, 4] (fun x => x % 2 == 0)
  exact ⟨by rw [h.1]; decide, h.2.2 [2, 3, 4] (by decide)⟩

theorem where_where_eq {α : Type} [Inhabited α] (p1 p2 : α → Bool) :
    where_enumerator (where_enumerator (range_enumerator α) p1) p2
      = where_enumerator (range_enumerator α) (fun x => p1 x && p2 x) := by
  rw [where_range_eq, where_enumerator_listMachine, where_range_eq]

theorem where_where_construct {α : Type} [Inhabited α] (p1 p2 : α → Bool)
    (S : List α) :
    where_construct (where_enumerator (range_enumerator α) p1) p2
      (where_construct (range_enumerator α) p1 S)
      = S.dropWhile (fun x => !(p1 x && p2 x)) := by
  rw [where_construct_range]
  simp only [where_construct, where_range_eq, listMachine_len]
  exact where_skip_listMachine p1 p2 S (S.dropWhile fun x => !p1 x)
    ((S.dropWhile fun x => !p1 x).length + 1) rfl (by omega)

/-- C7: chained filters compose by conjunction:
`from(S).where(p1).where(p2).to_vector()` equals
`from(S).where(fun x => p1 x && p2 x).to_vector()` for every `S`, `p1`,
`p2` (the inner where is constructed first, then the outer one over it,
exactly as the C++ chain does). -/
theorem where_where_to_vector {α : Type} [Inhabited α] (S : List α)
    (p1 p2 : α → Bool) :
    to_vector (where_enumerator (where_enumerator (range_enumerator α) p1) p2)
      (where_construct (where_enumerator (range_enumerator α) p1) p2
        (where_construct (range_enumerator α) p1 S))
      = to_vector (where_enumerator (range_enumerator α)
            (fun x => p1 x && p2 x))
          (where_construct (range_enumerator α) (fun x => p1 x && p2 x) S) := by
  rw [where_where_eq, where_where_construct, where_construct_range]

/-- Witness for `where_where_to_vector` (no hypotheses; instance at
`S = [1, 2, 3, 4, 5, 6]`, `p1 = (. % 2 == 0)`, `p2 = (. > 2)`). -/
theorem where_where_to_vector_witness :
    to_vector (where_enumerator (where_enumerator (range_enumerator Int)
          (fun x => x % 2 == 0)) (fun x => 2 < x))
      (where_construct (where_enumerator (range_enumerator Int)
          (fun x => x % 2 == 0)) (fun x => 2 < x)
        (where_construct (range_enumerator Int) (fun x => x % 2 == 0)
          [1, 2, 3, 4, 5, 6]))
      = to_vector (where_enumerator (range_enumerator Int)
            (fun x => (x % 2 == 0) && (2 < x)))
          (where_construct (range_enumerator Int)
            (fun x => (x % 2 == 0) && (2 < x)) [1, 2, 3, 4, 5, 6]) :=
  where_where_to_vector (α := Int) [1, 2, 3, 4, 5, 6] (fun x => x % 2 == 0)
    (fun x => 2 < x)

/-! ### Every cursor the library can produce, as a deep pipeline type

Claim C1 of the specification quantifies over every cursor produced by the
library and every sequence of public calls, so the possible cursor shapes
are reified: a source range under any stack of decorators.  The state type,
the machine and the constructed initial state of a pipeline are computed by
recursion over its shape. -/

inductive Pipe : Type → Type 1 where
  | src {α : Type} (inst : Inhabited α) (elems : List α) : Pipe α
  | takeC {α : Type} (parent : Pipe α) (amount : Int) : Pipe α
  | dropC {α : Type} (parent : Pipe α) (amount : Int) : Pipe α
  | selectC {α β : Type} (inst : Inhabited β) (parent : Pipe α)
      (func : α → β) : Pipe β
  | untilC {α : Type} (parent : Pipe α) (func : α → Bool) : Pipe α
  | whereC {α : Type} (parent : Pipe α) (func : α → Bool) : Pipe α

def Pipe.State : {α : Type} → Pipe α → Type
  | α, .src _ _ => List α
  | _, .takeC P _ => P.State × Int
  | _, .dropC P _ => P.State
  | β, .selectC _ P _ => SelectState P.State β
  | _, .untilC P _ => UntilState P.State
  | _, .whereC P _ => P.State

def Pipe.machine : {α : Type} → (P : Pipe α) → enumerator P.State α
  | _, .src inst _ => @range_enumerator _ inst
  | _, .takeC P _ => take_enumerator P.machine
  | _, .dropC P _ => drop_enumerator P.machine
  | _, .selectC _ P f => select_enumerator P.machine f
  | _, .untilC P p => until_enumerator P.machine p
  | _, .whereC P p => where_enumerator P.machine p

def Pipe.init : {α : Type} → (P : Pipe α) → P.State
  | _, .src _ elems => elems
  | _, .takeC P n => (P.init, n)
  | _, .dropC P n => drop_construct P.machine n.toNat P.init
  | _, .selectC inst P _ => ⟨P.init, inst.default, true, 0⟩
  | _, .untilC P _ => ⟨P.init, false, false⟩
  | _, .whereC P p => where_construct P.machine p P.init

/-- The three public cursor operations, for describing call sequences. -/
inductive CallK where
  | cbool
  | cderef
  | cinc
deriving DecidableEq

def Pipe.step {α : Type} (P : Pipe α) (c : CallK) (s : P.State) : P.State :=
  match c with
  | .cbool => ((P.machine).op_bool s).2
  | .cderef => ((P.machine).op_deref s).2
  | .cinc => (P.machine).op_inc s

def Pipe.run {α : Type} (P : Pipe α) : List CallK → P.State → P.State
  | [], s => s
  | c :: cs, s => P.run cs (P.step c s)

/-- Whether a pipeline contains no until decorator. -/
def Pipe.untilFree : {α : Type} → Pipe α → Bool
  | _, .src _ _ => true
  | _, .takeC P _ => P.untilFree
  | _, .dropC P _ => P.untilFree
  | _, .selectC _ P _ => P.untilFree
  | _, .untilC _ _ => false
  | _, .whereC P _ => P.untilFree

@[simp] theorem Pipe.machine_src {α : Type} (inst : Inhabited α)
    (elems : List α) :
    (Pipe.src inst elems).machine = @range_enumerator α inst := rfl

@[simp] theorem Pipe.machine_takeC {α : Type} (P : Pipe α) (n : Int) :
    (Pipe.takeC P n).machine = take_enumerator P.machine := rfl

@[simp] theorem Pipe.machine_dropC {α : Type} (P : Pipe α) (n : Int) :
    (Pipe.dropC P n).machine = drop_enumerator P.machine := rfl

@[simp] theorem Pipe.machine_selectC {α β : Type} (inst : Inhabited β)
    (P : Pipe α) (f : α → β) :
    (Pipe.selectC inst P f).machine = select_enumerator P.machine f := rfl

@[simp] theorem Pipe.machine_untilC {α : Type} (P : Pipe α) (p : α → Bool) :
    (Pipe.untilC P p).machine = until_enumerator P.machine p := rfl

@[simp] theorem Pipe.machine_whereC {α : Type} (P : Pipe α) (p : α → Bool) :
    (Pipe.whereC P p).machine = where_enumerator P.machine p := rfl

/-- Observation stability: a `valid()` or `current()` call never changes the
outcome of any later `valid()` or `current()` call (the internal memoization
they perform is outcome-invisible), for every cursor the library can
produce and every state. -/
theorem Pipe.obs_stable {α : Type} (P : Pipe α) :
    ∀ s : P.State,
      ((P.machine).op_bool ((P.machine).op_bool s).2).1
          = ((P.machine).op_bool s).1
      ∧ ((P.machine).op_bool ((P.machine).op_deref s).2).1
          = ((P.machine).op_bool s).1
      ∧ ((P.machine).op_deref ((P.machine).op_bool s).2).1
          = ((P.machine).op_deref s).1
      ∧ ((P.machine).op_deref ((P.machine).op_deref s).2).1
          = ((P.machine).op_deref s).1 := by
  induction P with
  | src inst elems =>
    intro s
    exact ⟨rfl, rfl, rfl, rfl⟩
  | takeC P n ih =>
    intro s
    obtain ⟨t, k⟩ := s
    have i1 := ih t
    by_cases hk : (0:Int) < k <;>
      simp [hk, i1.1, i1.2.1, i1.2.2.1, i1.2.2.2]
  | dropC P n ih =>
    intro s
    simpa using ih s
  | selectC inst P f ih =>
    intro s
    obtain ⟨t, v, fl, c⟩ := s
    have i1 := ih t
    by_cases hfl : fl = true <;>
      simp [hfl, i1.1, i1.2.1, i1.2.2.1, i1.2.2.2]
  | untilC P p ih =>
    intro s
    obtain ⟨t, fl, ff⟩ := s
    have i1 := ih t
    have i2 := ih ((P.machine.op_bool t).2)
    have i3 := ih ((P.machine.op_deref t).2)
    by_cases hpb : (P.machine.op_bool t).1 = true <;>
      by_cases hff : ff = true <;>
        simp [hpb, hff, i1.1, i1.2.1, i1.2.2.1, i1.2.2.2,
          i2.1, i2.2.1, i2.2.2.1, i2.2.2.2,
          i3.1, i3.2.1, i3.2.2.1, i3.2.2.2]
  | whereC P p ih =>
    intro s
    simpa using ih s

/-- In a pipeline without until decorators, `valid()` does not mutate any
state at all (only until memoizes inside `operator bool`). -/
theorem Pipe.bool_pure {α : Type} (P : Pipe α) (h : P.untilFree = true) :
    ∀ s : P.State, ((P.machine).op_bool s).2 = s := by
  induction P with
  | src inst elems =>
    intro s
    rfl
  | takeC P n ih =>
    intro s
    obtain ⟨t, k⟩ := s
    have hp : P.untilFree = true := by simpa [Pipe.untilFree] using h
    by_cases hk : (0:Int) < k <;> simp [hk, ih hp]
  | dropC P n ih =>
    intro s
    have hp : P.untilFree = true := by simpa [Pipe.untilFree] using h
    simpa using ih hp s
  | selectC inst P f ih =>
    intro s
    obtain ⟨t, v, fl, c⟩ := s
    have hp : P.untilFree = true := by simpa [Pipe.untilFree] using h
    simp [ih hp]
  | untilC P p ih =>
    exact absurd h (by simp [Pipe.untilFree])
  | whereC P p ih =>
    intro s
    have hp : P.untilFree = true := by simpa [Pipe.untilFree] using h
    simpa using ih hp s

/-- In a pipeline without until decorators, an invalid cursor stays invalid
across `advance()`: `valid()` is monotone (false is absorbing). -/
theorem Pipe.inc_mono {α : Type} (P : Pipe α) (h : P.untilFree = true) :
    ∀ s : P.State, ((P.machine).op_bool s).1 = false →
      ((P.machine).op_bool ((P.machine).op_inc s)).1 = false := by
  induction P with
  | src inst elems =>
    intro s hb
    cases s with
    | nil => simpa using hb
    | cons a l => simp at hb
  | takeC P n ih =>
    intro s hb
    obtain ⟨t, k⟩ := s
    have hp : P.untilFree = true := by simpa [Pipe.untilFree] using h
    by_cases hk : (0:Int) < k
    · simp only [Pipe.machine_takeC, take_op_bool, hk, if_true] at hb
      by_cases hk1 : (0:Int) < k - 1
      · simp [hk1, ih hp t hb]
      · simp [hk1]
    · have hk1 : ¬ (0:Int) < k - 1 := by omega
      simp [hk1]
  | dropC P n ih =>
    intro s hb
    have hp : P.untilFree = true := by simpa [Pipe.untilFree] using h
    simp only [Pipe.machine_dropC, drop_op_bool, drop_op_inc] at hb ⊢
    exact ih hp s hb
  | selectC inst P f ih =>
    intro s hb
    obtain ⟨t, v, fl, c⟩ := s
    have hp : P.untilFree = true := by simpa [Pipe.untilFree] using h
    simp only [Pipe.machine_selectC, select_op_bool, select_op_inc] at hb ⊢
    exact ih hp t hb
  | untilC P p ih =>
    exact absurd h (by simp [Pipe.untilFree])
  | whereC P p ih =>
    intro s hb
    have hp : P.untilFree = true := by simpa [Pipe.untilFree] using h
    simp only [Pipe.machine_whereC, where_op_bool, where_op_inc] at hb ⊢
    have hb1 : ((P.machine).op_bool ((P.machine).op_inc s)).1 = false :=
      ih hp s hb
    rw [where_skip]
    simp only [hb1, Bool.false_eq_true, if_false]
    rw [P.bool_pure hp ((P.machine).op_inc s)]
    exact hb1

/-- C1 (amended): for every cursor the library can produce and every state,
once `valid()` has returned false it keeps returning false across any later
sequence of public calls, provided either (a) the cursor is built without an
until decorator, or (b) the sequence contains no `advance()` call.  (The
original claim, without these provisos, is refuted by `until_revives`: an
until cursor whose current element satisfied the predicate becomes valid
again after `advance()` moves the upstream past the triggering element.) -/
theorem Pipe.invalid_stays {α : Type} (P : Pipe α) :
    ∀ (cs : List CallK) (s : P.State),
      ((P.machine).op_bool s).1 = false →
      (P.untilFree = true ∨ CallK.cinc ∉ cs) →
      ((P.machine).op_bool (P.run cs s)).1 = false := by
  intro cs
  induction cs with
  | nil =>
    intro s hb _
    exact hb
  | cons c cs ih =>
    intro s hb hc
    have hstep : ((P.machine).op_bool (P.step c s)).1 = false := by
      cases c with
      | cbool =>
        rw [Pipe.step]
        rw [(P.obs_stable s).1]
        exact hb
      | cderef =>
        rw [Pipe.step]
        rw [(P.obs_stable s).2.1]
        exact hb
      | cinc =>
        rcases hc with h | h
        · exact P.inc_mono h s hb
        · exact absurd (by simp : CallK.cinc ∈ CallK.cinc :: cs) h
    have hc' : P.untilFree = true ∨ CallK.cinc ∉ cs := by
      rcases hc with h | h
      · exact Or.inl h
      · exact Or.inr (fun hm => h (List.mem_cons_of_mem _ hm))
    rw [Pipe.run]
    exact ih (P.step c s) hstep hc'

/-- Witness for `Pipe.invalid_stays`: a `take(0)` cursor over the range
`[1, 2, 3]` is invalid and stays invalid across advance and valid calls. -/
theorem pipe_invalid_stays_witness :
    ((Pipe.takeC (Pipe.src ⟨(0:Int)⟩ [1, 2, 3]) 0).machine.op_bool
        ((Pipe.takeC (Pipe.src ⟨(0:Int)⟩ [1, 2, 3]) 0).run
          [CallK.cinc, CallK.cbool, CallK.cinc, CallK.cderef]
          ([1, 2, 3], 0))).1 = false :=
  Pipe.invalid_stays (Pipe.takeC (Pipe.src ⟨(0:Int)⟩ [1, 2, 3]) 0)
    [CallK.cinc, CallK.cbool, CallK.cinc, CallK.cderef] ([1, 2, 3], 0)
    (by decide) (Or.inl (by decide))

/-- C1 counterexample: the original claim fails on an until cursor.  Over
the source `[1, 0, 2]` with predicate `(. == 0)`: after one `advance()` the
current element is `0`, so `valid()` returns false (the cursor reports
exhaustion); after a further `advance()` the cursor reports `valid() = true`
again, with no reset operation involved. -/
theorem until_revives :
    (((until_enumerator (range_enumerator Int) (fun x => x == 0)).op_bool
        ((until_enumerator (range_enumerator Int) (fun x => x == 0)).op_inc
          ⟨[1, 0, 2], false, false⟩)).1 = false)
    ∧ (((until_enumerator (range_enumerator Int) (fun x => x == 0)).op_bool
        ((until_enumerator (range_enumerator Int) (fun x => x == 0)).op_inc
          (((until_enumerator (range_enumerator Int)
              (fun x => x == 0)).op_bool
            ((until_enumerator (range_enumerator Int)
                (fun x => x == 0)).op_inc
              ⟨[1, 0, 2], false, false⟩)).2))).1 = true) := by
  decide
